import Mathlib

/-!
Verification development for the feed aggregator `aggregate.py`.

The pipeline in `main` is embedded as pure Lean functions over explicit
state: fetching is modelled by an oracle of per-attempt outcomes, entry
normalization (`to_dt`, `norm_text`, title/summary/link extraction) is
translated field by field, and the merge engine (global link dedupe,
per-feed cap, stable descending sort, total cap) is given as a fold over
a `MergeState`.  The combined-feed guid (SHA-1 of the UTF-8 link) and
`xml_escape` (chained Python `str.replace` calls) are embedded
executably as well.
-/

namespace RSS

/-- Python-style whitespace test used by `str.strip()` (ASCII subset). -/
def isSpace (c : Char) : Bool :=
  c == ' ' || c == '\t' || c == '\n' || c == '\x0d' || c == '\x0b' || c == '\x0c'

/-- Drop leading whitespace characters. -/
def dropLeadWS : List Char → List Char
  | [] => []
  | c :: rest => if isSpace c then dropLeadWS rest else c :: rest

/-- Characters of `s.strip()`: whitespace removed from both ends. -/
def stripChars (l : List Char) : List Char :=
  ((dropLeadWS ((dropLeadWS l).reverse)).reverse)

/-- Model of Python `s.strip()`. -/
def pyStrip (s : String) : String := String.mk (stripChars s.data)

/-- Model of `norm_text` in `aggregate.py`: `s.strip() if s else ""`. -/
def norm_text (s : String) : String := if s = "" then "" else pyStrip s

/-- Python `a or b` on strings: `b` when `a` is falsy (empty). -/
def pyOrS (a b : String) : String := if a = "" then b else a

/-- A timezone-normalized instant: epoch seconds plus the tz-awareness flag
that `datetime.astimezone` / `datetime.now(timezone.utc)` attach. -/
structure Instant where
  sec : Int
  aware : Bool
deriving DecidableEq, Repr

/-- A raw feedparser entry: every field may be absent.  The three
`*_parsed` fields model the candidate `time.struct_time` values as
opaque tokens (naturals) fed to the mktime-based conversion. -/
structure RawEntry where
  title : Option String
  link : Option String
  summary : Option String
  published_parsed : Option Nat
  updated_parsed : Option Nat
  created_parsed : Option Nat
deriving DecidableEq, Repr

/-- A fetched-and-parsed feed document: optional channel title plus the
ordered entries. -/
structure RawFeedDoc where
  ftitle : Option String
  entries : List RawEntry
deriving DecidableEq, Repr

/-- The canonical item shape appended by `main`. -/
structure Item where
  title : String
  link : String
  summary : String
  source : String
  dt : Instant
deriving DecidableEq, Repr

/-- The link of an entry: `norm_text(getattr(e, "link", "") or e.get("link", ""))`. -/
def entryLink (e : RawEntry) : String := norm_text (e.link.getD "")

/-- The title of an entry: `norm_text(getattr(e, "title", "") or e.get("title", "") or "(无标题)")`. -/
def entryTitle (e : RawEntry) : String := norm_text (pyOrS (e.title.getD "") "(无标题)")

/-- The summary of an entry: `getattr(e, "summary", "") or e.get("summary", "") or ""`
(note: no `norm_text` is applied in the source). -/
def entrySummary (e : RawEntry) : String := pyOrS (e.summary.getD "") ""

/-- The key loop of `to_dt`: walk the candidate fields in order, return
the first value that is present and that the mktime/fromtimestamp
conversion `conv` parses; an absent field or a conversion failure falls
through to the next candidate. -/
def resolveKeys (conv : Nat → Option Int) : List (Option Nat) → Option Int
  | [] => none
  | none :: rest => resolveKeys conv rest
  | some v :: rest =>
    match conv v with
    | some n => some n
    | none => resolveKeys conv rest

/-- Model of `to_dt`: try `published_parsed`, `updated_parsed`,
`created_parsed` in that order; a successful conversion goes through
`astimezone(timezone.utc)` (tz-aware), otherwise fall back to
`datetime.now(timezone.utc)` (also tz-aware). -/
def to_dt (conv : Nat → Option Int) (now : Int) (e : RawEntry) : Instant :=
  match resolveKeys conv [e.published_parsed, e.updated_parsed, e.created_parsed] with
  | some n => ⟨n, true⟩
  | none => ⟨now, true⟩

/-- The mutable state of the merge loop in `main`: the `seen_links` set,
the accumulated `all_items`, and `fail_count`. -/
structure MergeState where
  seen : List String
  items : List Item
  fails : Nat
deriving DecidableEq, Repr

/-- One iteration of the inner entry loop of `main`: skip the entry when
its link is empty or already seen, otherwise record the link and append
the normalized item. -/
def addEntry (conv : Nat → Option Int) (now : Int) (ftitle : String)
    (st : MergeState) (e : RawEntry) : MergeState :=
  let link := entryLink e
  if link = "" ∨ link ∈ st.seen then st
  else ⟨link :: st.seen,
        st.items ++ [⟨entryTitle e, link, entrySummary e, ftitle, to_dt conv now e⟩],
        st.fails⟩

/-- One iteration of the outer feed loop of `main`: a document with zero
entries only bumps the failure counter; otherwise the first `perFeedCap`
raw entries are folded through `addEntry` under the feed's source label. -/
def processFeed (conv : Nat → Option Int) (now : Int) (perFeedCap : Nat)
    (st : MergeState) (url : String) (doc : RawFeedDoc) : MergeState :=
  if doc.entries = [] then ⟨st.seen, st.items, st.fails + 1⟩
  else
    (doc.entries.take perFeedCap).foldl
      (addEntry conv now (pyOrS (norm_text (doc.ftitle.getD "")) url)) st

/-- The accumulation phase of `main` over the fetched documents. -/
def accumulate (conv : Nat → Option Int) (now : Int) (perFeedCap : Nat)
    (feeds : List (String × RawFeedDoc)) : MergeState :=
  feeds.foldl (fun st p => processFeed conv now perFeedCap st p.1 p.2) ⟨[], [], 0⟩

/-- Sort key of `all_items.sort(key=lambda x: x["dt"], reverse=True)`. -/
def dtKey (it : Item) : Int := it.dt.sec

/-- Insert an item into a descending-sorted list, before the first
element whose key is not larger — so an element inserted from the left
lands before every equal-key element (stability). -/
def insertDesc (x : Item) : List Item → List Item
  | [] => [x]
  | y :: ys => if dtKey y ≤ dtKey x then x :: y :: ys else y :: insertDesc x ys

/-- Stable descending sort modelling Python's stable `list.sort` with
`reverse=True`. -/
def sortDesc : List Item → List Item
  | [] => []
  | x :: xs => insertDesc x (sortDesc xs)

/-- The whole merge pipeline of `main` after fetching: accumulate, sort
by timestamp descending, truncate to `totalCap`; also returns the
failure counter. -/
def runPipeline (conv : Nat → Option Int) (now : Int) (perFeedCap totalCap : Nat)
    (feeds : List (String × RawFeedDoc)) : List Item × Nat :=
  let st := accumulate conv now perFeedCap feeds
  ((sortDesc st.items).take totalCap, st.fails)

/-- Outcome of one HTTP attempt inside `fetch_feed`: a raised transport
error, or a response with a status code and the document that
`feedparser.parse` extracts from its body. -/
inductive Attempt where
  | transportError
  | response (status : Nat) (doc : RawFeedDoc)
deriving DecidableEq, Repr

/-- Classification of one attempt in `fetch_feed`: a transport error, an
HTTP status of 400 or above, and a parsed-but-zero-entries document are
all failures (`none`); only a success yields the document. -/
def attemptValue : Attempt → Option RawFeedDoc
  | Attempt.transportError => none
  | Attempt.response status doc =>
    if 400 ≤ status then none
    else if doc.entries = [] then none
    else some doc

/-- The document `feedparser.parse(b"")` returned after giving up. -/
def emptyDoc : RawFeedDoc := ⟨none, []⟩

/-- The retry loop of `fetch_feed`: attempt index `i`, `r` attempts
remaining; a failed attempt falls through to the next one, and
exhaustion yields the empty document instead of raising. -/
def fetchFrom (attempts : Nat → Attempt) : Nat → Nat → RawFeedDoc
  | _, 0 => emptyDoc
  | i, r + 1 =>
    match attemptValue (attempts i) with
    | some doc => doc
    | none => fetchFrom attempts (i + 1) r

/-- Model of `fetch_feed`: at most `retry + 1` attempts. -/
def fetch_feed (retry : Nat) (attempts : Nat → Attempt) : RawFeedDoc :=
  fetchFrom attempts 0 (retry + 1)

/-! ### SHA-1 over the UTF-8 bytes of the link, for the combined-feed guid -/

/-- Reduce to a 32-bit word. -/
def w32 (n : Nat) : Nat := n % 4294967296

/-- Rotate a 32-bit word left by `s` bits. -/
def rotl (s n : Nat) : Nat := (w32 n * 2 ^ s) % 4294967296 + w32 n / 2 ^ (32 - s)

/-- Bitwise complement within 32 bits. -/
def notW (n : Nat) : Nat := 4294967295 - w32 n

/-- The SHA-1 round function. -/
def fF (t b c d : Nat) : Nat :=
  if t < 20 then (b &&& c) ||| (notW b &&& d)
  else if t < 40 then (b ^^^ c) ^^^ d
  else if t < 60 then ((b &&& c) ||| (b &&& d)) ||| (c &&& d)
  else (b ^^^ c) ^^^ d

/-- The SHA-1 round constants. -/
def kK (t : Nat) : Nat :=
  if t < 20 then 0x5A827999
  else if t < 40 then 0x6ED9EBA1
  else if t < 60 then 0x8F1BBCDC
  else 0xCA62C1D6

/-- Group bytes into big-endian 32-bit words. -/
def bytesToWords : List Nat → List Nat
  | b0 :: b1 :: b2 :: b3 :: rest =>
    (((b0 * 256 + b1) * 256 + b2) * 256 + b3) :: bytesToWords rest
  | _ => []

/-- Extend the 16 chunk words by `k` further schedule words. -/
def sched (acc : List Nat) : Nat → List Nat
  | 0 => acc
  | k + 1 =>
    let n := acc.length
    sched (acc ++ [rotl 1 ((acc.getD (n - 3) 0 ^^^ acc.getD (n - 8) 0) ^^^
      (acc.getD (n - 14) 0 ^^^ acc.getD (n - 16) 0))]) k

/-- Run `r` SHA-1 rounds starting at round index `t`. -/
def sha1Rounds (w : List Nat) : Nat → Nat → (Nat × Nat × Nat × Nat × Nat) → (Nat × Nat × Nat × Nat × Nat)
  | _, 0, st => st
  | t, r + 1, st =>
    match st with
    | (a, b, c, d, e) =>
      sha1Rounds w (t + 1) r
        (w32 (rotl 5 a + fF t b c d + e + kK t + w.getD t 0), a, rotl 30 b, c, d)

/-- Compress one 64-byte chunk into the running hash state. -/
def compress (chunk : List Nat) (h : Nat × Nat × Nat × Nat × Nat) : Nat × Nat × Nat × Nat × Nat :=
  match h with
  | (h0, h1, h2, h3, h4) =>
    match sha1Rounds (sched (bytesToWords chunk) 64) 0 80 (h0, h1, h2, h3, h4) with
    | (a, b, c, d, e) => (w32 (h0 + a), w32 (h1 + b), w32 (h2 + c), w32 (h3 + d), w32 (h4 + e))

/-- Fold the padded message 64 bytes at a time. -/
def processChunks (msg : List Nat) (h : Nat × Nat × Nat × Nat × Nat) : Nat × Nat × Nat × Nat × Nat :=
  match msg with
  | [] => h
  | c :: rest => processChunks ((c :: rest).drop 64) (compress ((c :: rest).take 64) h)
termination_by msg.length
decreasing_by
  simp only [List.length_drop, List.length_cons]
  omega

/-- Big-endian byte expansion of `n` over `k` bytes. -/
def beBytes : Nat → Nat → List Nat
  | 0, _ => []
  | k + 1, n => beBytes k (n / 256) ++ [n % 256]

/-- SHA-1 message padding. -/
def padMsg (msg : List Nat) : List Nat :=
  msg ++ [128] ++ List.replicate ((119 - msg.length % 64) % 64) 0 ++ beBytes 8 (msg.length * 8)

/-- One lowercase hexadecimal digit. -/
def hexDigit (n : Nat) : Char :=
  if n < 10 then Char.ofNat (48 + n) else Char.ofNat (87 + n)

/-- Fixed-width lowercase hexadecimal rendering. -/
def hexN : Nat → Nat → List Char
  | 0, _ => []
  | k + 1, n => hexN k (n / 16) ++ [hexDigit (n % 16)]

/-- The 40-character hex digest of SHA-1, as in `hashlib.sha1(...).hexdigest()`. -/
def sha1Hex (msg : List Nat) : String :=
  match processChunks (padMsg msg) (0x67452301, 0xEFCDAB89, 0x98BADCFE, 0x10325476, 0xC3D2E1F0) with
  | (a, b, c, d, e) =>
    String.mk (hexN 8 a ++ hexN 8 b ++ hexN 8 c ++ hexN 8 d ++ hexN 8 e)

/-- UTF-8 encoding of one character. -/
def utf8Bytes (c : Char) : List Nat :=
  let n := c.toNat
  if n < 128 then [n]
  else if n < 2048 then [192 + n / 64, 128 + n % 64]
  else if n < 65536 then [224 + n / 4096, 128 + n / 64 % 64, 128 + n % 64]
  else [240 + n / 262144, 128 + n / 4096 % 64, 128 + n / 64 % 64, 128 + n % 64]

/-- UTF-8 bytes of a string, as in `s.encode("utf-8")`. -/
def strBytes (s : String) : List Nat :=
  s.data.foldr (fun c acc => utf8Bytes c ++ acc) []

/-- The combined-feed guid of an item:
`hashlib.sha1(it["link"].encode("utf-8")).hexdigest()` — a function of
the link alone. -/
def guidOf (it : Item) : String := sha1Hex (strBytes it.link)

/-! ### `xml_escape` and its inverse substitutions -/

/-- Prefix test on character lists. -/
def isPre : List Char → List Char → Bool
  | [], _ => true
  | _ :: _, [] => false
  | p :: ps, c :: cs => p == c && isPre ps cs

/-- Worker for Python `str.replace`: the `Nat` counts pattern characters
still to be skipped after a match (the replacement is not rescanned and
matches are taken non-overlapping, left to right). -/
def repAux (p : Char) (ps rep : List Char) : Nat → List Char → List Char
  | _, [] => []
  | k + 1, _ :: rest => repAux p ps rep k rest
  | 0, c :: rest =>
    match isPre (p :: ps) (c :: rest) with
    | true => rep ++ repAux p ps rep ps.length rest
    | false => c :: repAux p ps rep 0 rest

/-- Model of Python `s.replace(pat, rep)` for a non-empty pattern
`p :: ps`. -/
def replaceStr (p : Char) (ps rep : List Char) (l : List Char) : List Char :=
  repAux p ps rep 0 l

/-- The characters produced by `xml_escape`: chained
`.replace("&", "&amp;").replace("<", "&lt;").replace(">", "&gt;")`. -/
def xmlEscapeL (l : List Char) : List Char :=
  replaceStr '>' [] ['&', 'g', 't', ';']
    (replaceStr '<' [] ['&', 'l', 't', ';']
      (replaceStr '&' [] ['&', 'a', 'm', 'p', ';'] l))

/-- Model of `xml_escape` in `build_combined_rss` (for an actual string
argument, where `(s or "")` is the identity). -/
def xml_escape (s : String) : String := String.mk (xmlEscapeL s.data)

/-- The inverse substitutions in the order the claim gives them:
`&lt;` to `<`, `&gt;` to `>`, then `&amp;` to `&`. -/
def xmlUnescapeL (l : List Char) : List Char :=
  replaceStr '&' ['a', 'm', 'p', ';'] ['&']
    (replaceStr '&' ['g', 't', ';'] ['>']
      (replaceStr '&' ['l', 't', ';'] ['<'] l))

/-- String-level inverse of `xml_escape`. -/
def xml_unescape (s : String) : String := String.mk (xmlUnescapeL s.data)

/-- Charwise characterization of the full escape chain. -/
def escChar (c : Char) : List Char :=
  if c == '&' then ['&', 'a', 'm', 'p', ';']
  else if c == '<' then ['&', 'l', 't', ';']
  else if c == '>' then ['&', 'g', 't', ';']
  else [c]

/-- Charwise form after the `&` replacement only. -/
def escChar1 (c : Char) : List Char :=
  if c == '&' then ['&', 'a', 'm', 'p', ';'] else [c]

/-- Charwise form after undoing `&lt;`: `<` is literal again. -/
def escChar2 (c : Char) : List Char :=
  if c == '&' then ['&', 'a', 'm', 'p', ';']
  else if c == '>' then ['&', 'g', 't', ';']
  else [c]

/-- Charwise form after the `&` and `<` replacements. -/
def escChar12 (c : Char) : List Char :=
  if c == '&' then ['&', 'a', 'm', 'p', ';']
  else if c == '<' then ['&', 'l', 't', ';']
  else [c]

/-- Concatenated map over characters. -/
def catMap (f : Char → List Char) : List Char → List Char
  | [] => []
  | c :: rest => f c ++ catMap f rest

/-- No raw angle bracket occurs. -/
def noAngleL (l : List Char) : Bool :=
  l.all (fun c => !(c == '<') && !(c == '>'))

/-- Every ampersand heads one of the three inserted entities. -/
def ampOk : List Char → Bool
  | [] => true
  | c :: rest =>
    (if c == '&' then
      isPre ['a', 'm', 'p', ';'] rest || isPre ['l', 't', ';'] rest ||
        isPre ['g', 't', ';'] rest
     else true) && ampOk rest

/-! ### Helper lemmas about the fetch loop -/

/-- The document returned by the retry loop depends only on the outcomes
of the attempts it may consult. -/
theorem fetchFrom_congr (a1 a2 : Nat → Attempt) :
    ∀ r i, (∀ j, i ≤ j → j < i + r → a1 j = a2 j) → fetchFrom a1 i r = fetchFrom a2 i r := by
  intro r
  induction r with
  | zero => intro i _; rfl
  | succ n ih =>
    intro i h
    have hi : a1 i = a2 i := h i (le_refl i) (by omega)
    simp only [fetchFrom, hi]
    cases h2 : attemptValue (a2 i) with
    | some doc => rfl
    | none => exact ih (i + 1) (fun j hj1 hj2 => h j (by omega) (by omega))

/-- If every consultable attempt fails, the retry loop yields the empty
document. -/
theorem fetchFrom_all_fail (a : Nat → Attempt) :
    ∀ r i, (∀ j, i ≤ j → j < i + r → attemptValue (a j) = none) → fetchFrom a i r = emptyDoc := by
  intro r
  induction r with
  | zero => intro i _; rfl
  | succ n ih =>
    intro i h
    have hi : attemptValue (a i) = none := h i (le_refl i) (by omega)
    simp only [fetchFrom, hi]
    exact ih (i + 1) (fun j hj1 hj2 => h j (by omega) (by omega))

/-- A candidate timestamp field that is absent, or present but rejected
by the conversion. -/
def failsK (conv : Nat → Option Int) (o : Option Nat) : Prop :=
  ∀ v, o = some v → conv v = none

/-- Claim C5: `to_dt` tries the published, updated and created
representations in that priority order, uses the first present and
parseable one as a timezone-aware instant, and falls back to the current
instant, so the result is always timezone-aware. -/
theorem C5_to_dt_priority : ∀ (conv : Nat → Option Int) (now : Int) (e : RawEntry),
    (to_dt conv now e).aware = true
    ∧ (∀ v n, e.published_parsed = some v → conv v = some n → to_dt conv now e = ⟨n, true⟩)
    ∧ (∀ v n, failsK conv e.published_parsed → e.updated_parsed = some v →
        conv v = some n → to_dt conv now e = ⟨n, true⟩)
    ∧ (∀ v n, failsK conv e.published_parsed → failsK conv e.updated_parsed →
        e.created_parsed = some v → conv v = some n → to_dt conv now e = ⟨n, true⟩)
    ∧ (failsK conv e.published_parsed → failsK conv e.updated_parsed →
        failsK conv e.created_parsed → to_dt conv now e = ⟨now, true⟩) := by
  intro conv now e
  refine ⟨?_, ?_, ?_, ?_, ?_⟩
  · cases h : resolveKeys conv [e.published_parsed, e.updated_parsed, e.created_parsed] with
    | some n => simp [to_dt, h]
    | none => simp [to_dt, h]
  · intro v n hp hc
    simp [to_dt, resolveKeys, hp, hc]
  · intro v n h1 h2 h3
    cases hp : e.published_parsed with
    | none => simp [to_dt, resolveKeys, hp, h2, h3]
    | some v0 => simp [to_dt, resolveKeys, hp, h1 v0 hp, h2, h3]
  · intro v n h1 h2 h3 h4
    cases hp : e.published_parsed with
    | none =>
      cases hu : e.updated_parsed with
      | none => simp [to_dt, resolveKeys, hp, hu, h3, h4]
      | some v1 => simp [to_dt, resolveKeys, hp, hu, h2 v1 hu, h3, h4]
    | some v0 =>
      cases hu : e.updated_parsed with
      | none => simp [to_dt, resolveKeys, hp, h1 v0 hp, hu, h3, h4]
      | some v1 => simp [to_dt, resolveKeys, hp, h1 v0 hp, hu, h2 v1 hu, h3, h4]
  · intro h1 h2 h3
    cases hp : e.published_parsed with
    | none =>
      cases hu : e.updated_parsed with
      | none =>
        cases hc : e.created_parsed with
        | none => simp [to_dt, resolveKeys, hp, hu, hc]
        | some v2 => simp [to_dt, resolveKeys, hp, hu, hc, h3 v2 hc]
      | some v1 =>
        cases hc : e.created_parsed with
        | none => simp [to_dt, resolveKeys, hp, hu, h2 v1 hu, hc]
        | some v2 => simp [to_dt, resolveKeys, hp, hu, h2 v1 hu, hc, h3 v2 hc]
    | some v0 =>
      cases hu : e.updated_parsed with
      | none =>
        cases hc : e.created_parsed with
        | none => simp [to_dt, resolveKeys, hp, h1 v0 hp, hu, hc]
        | some v2 => simp [to_dt, resolveKeys, hp, h1 v0 hp, hu, hc, h3 v2 hc]
      | some v1 =>
        cases hc : e.created_parsed with
        | none => simp [to_dt, resolveKeys, hp, h1 v0 hp, hu, h2 v1 hu, hc]
        | some v2 => simp [to_dt, resolveKeys, hp, h1 v0 hp, hu, h2 v1 hu, hc, h3 v2 hc]

/-- Conversion used by the `C5` witness: every token parses to itself. -/
def conv1 : Nat → Option Int := fun v => some (Int.ofNat v)

/-- Entry used by the `C5` witness: no published field, an updated field. -/
def entU : RawEntry := ⟨none, none, none, none, some 7, none⟩

/-- Witness for C5 at a concrete entry whose published field is absent
and whose updated field parses. -/
theorem C5_witness : to_dt conv1 0 entU = ⟨7, true⟩ :=
  (C5_to_dt_priority conv1 0 entU).2.2.1 7 7 (fun _ h => nomatch h) rfl rfl

/-- Claim C6: `fetch_feed` consults at most `retry + 1` attempts;
transport errors, HTTP status at least 400, and parsed-but-empty
documents are all retried; exhaustion yields an empty document rather
than an exception, and the main loop then counts the source as failed
while leaving the accumulated state otherwise unchanged. -/
theorem C6_fetch_retry : ∀ (retry : Nat) (a1 a2 : Nat → Attempt),
    ((∀ i, i ≤ retry → a1 i = a2 i) → fetch_feed retry a1 = fetch_feed retry a2)
    ∧ (∀ i r, (a1 i = Attempt.transportError ∨
        ∃ s d, a1 i = Attempt.response s d ∧ (400 ≤ s ∨ d.entries = [])) →
        fetchFrom a1 i (r + 1) = fetchFrom a1 (i + 1) r)
    ∧ ((∀ i, i ≤ retry → attemptValue (a1 i) = none) →
        fetch_feed retry a1 = emptyDoc ∧ emptyDoc.entries = [])
    ∧ (∀ conv now cap st url,
        processFeed conv now cap st url emptyDoc = ⟨st.seen, st.items, st.fails + 1⟩) := by
  intro retry a1 a2
  refine ⟨?_, ?_, ?_, ?_⟩
  · intro h
    exact fetchFrom_congr a1 a2 (retry + 1) 0 (fun j _ hj2 => h j (by omega))
  · intro i r h
    have hv : attemptValue (a1 i) = none := by
      rcases h with h | ⟨s, d, hd, hsd⟩
      · rw [h]; rfl
      · rcases hsd with h4 | he
        · simp [hd, attemptValue, h4]
        · simp [hd, attemptValue, he]
    simp only [fetchFrom, hv]
  · intro h
    exact ⟨fetchFrom_all_fail a1 (retry + 1) 0 (fun j _ hj2 => h j (by omega)), rfl⟩
  · intro conv now cap st url
    rfl

/-- Attempt oracle for the `C6` witness: everything errors out. -/
def aT : Nat → Attempt := fun _ => Attempt.transportError

/-- Witness for C6: with every attempt a transport error, `fetch_feed`
returns the empty document. -/
theorem C6_witness : fetch_feed 1 aT = emptyDoc ∧ emptyDoc.entries = [] :=
  (C6_fetch_retry 1 aT aT).2.2.1 (fun _ _ => rfl)

/-! ### Invariants of the merge loop -/

/-- The loop invariant of `main`: accumulated items have pairwise
distinct links, and every accumulated link is in the seen set. -/
def InvState (st : MergeState) : Prop :=
  st.items.Pairwise (fun a b => a.link ≠ b.link) ∧ ∀ it ∈ st.items, it.link ∈ st.seen

/-- `addEntry` preserves the loop invariant. -/
theorem addEntry_inv (conv : Nat → Option Int) (now : Int) (ft : String)
    (st : MergeState) (e : RawEntry) (h : InvState st) :
    InvState (addEntry conv now ft st e) := by
  unfold addEntry
  by_cases hc : entryLink e = "" ∨ entryLink e ∈ st.seen
  · simp only [if_pos hc]
    exact h
  · push_neg at hc
    simp only [if_neg (not_or.mpr ⟨hc.1, hc.2⟩)]
    constructor
    · rw [List.pairwise_append]
      refine ⟨h.1, List.pairwise_singleton _ _, ?_⟩
      intro a ha b hb
      have hb2 : b.link = entryLink e := by
        rcases List.mem_singleton.mp hb with rfl
        rfl
      rw [hb2]
      intro heq
      exact hc.2 (heq ▸ h.2 a ha)
    · intro it hit
      rcases List.mem_append.mp hit with hold | hnew
      · exact List.mem_cons_of_mem _ (h.2 it hold)
      · rcases List.mem_singleton.mp hnew with rfl
        exact List.mem_cons_self _ _

/-- Folding a list of entries preserves the loop invariant. -/
theorem foldl_addEntry_inv (conv : Nat → Option Int) (now : Int) (ft : String) :
    ∀ (es : List RawEntry) (st : MergeState), InvState st →
      InvState (es.foldl (addEntry conv now ft) st) := by
  intro es
  induction es with
  | nil => intro st h; exact h
  | cons e es ih =>
    intro st h
    exact ih _ (addEntry_inv conv now ft st e h)

/-- `processFeed` preserves the loop invariant. -/
theorem processFeed_inv (conv : Nat → Option Int) (now : Int) (cap : Nat)
    (st : MergeState) (url : String) (doc : RawFeedDoc) (h : InvState st) :
    InvState (processFeed conv now cap st url doc) := by
  unfold processFeed
  by_cases hd : doc.entries = []
  · simp only [if_pos hd]
    exact h
  · simp only [if_neg hd]
    exact foldl_addEntry_inv _ _ _ _ _ h

/-- The accumulated state of any run satisfies the loop invariant. -/
theorem accumulate_inv (conv : Nat → Option Int) (now : Int) (cap : Nat)
    (feeds : List (String × RawFeedDoc)) : InvState (accumulate conv now cap feeds) := by
  unfold accumulate
  have main : ∀ (fs : List (String × RawFeedDoc)) (st : MergeState), InvState st →
      InvState (fs.foldl (fun st p => processFeed conv now cap st p.1 p.2) st) := by
    intro fs
    induction fs with
    | nil => intro st h; exact h
    | cons f fs ih =>
      intro st h
      exact ih _ (processFeed_inv conv now cap st f.1 f.2 h)
  exact main feeds ⟨[], [], 0⟩ ⟨List.Pairwise.nil, by intro it h; cases h⟩

/-! ### The stable descending sort -/

/-- `insertDesc` inserts, as a permutation. -/
theorem insertDesc_perm (x : Item) : ∀ l : List Item, (insertDesc x l).Perm (x :: l) := by
  intro l
  induction l with
  | nil => simp [insertDesc]
  | cons y ys ih =>
    by_cases h : dtKey y ≤ dtKey x
    · simp [insertDesc, h]
    · simp only [insertDesc, if_neg h]
      exact (ih.cons y).trans (List.Perm.swap x y ys)

/-- `sortDesc` permutes its input. -/
theorem sortDesc_perm : ∀ l : List Item, (sortDesc l).Perm l := by
  intro l
  induction l with
  | nil => simp [sortDesc]
  | cons x xs ih =>
    exact (insertDesc_perm x (sortDesc xs)).trans (ih.cons x)

/-- `insertDesc` preserves descending sortedness. -/
theorem insertDesc_sorted (x : Item) : ∀ l : List Item,
    l.Pairwise (fun a b => dtKey b ≤ dtKey a) →
    (insertDesc x l).Pairwise (fun a b => dtKey b ≤ dtKey a) := by
  intro l
  induction l with
  | nil => intro _; simp [insertDesc]
  | cons y ys ih =>
    intro h
    rcases List.pairwise_cons.mp h with ⟨hy, hys⟩
    by_cases hc : dtKey y ≤ dtKey x
    · simp only [insertDesc, if_pos hc]
      refine List.pairwise_cons.mpr ⟨?_, h⟩
      intro b hb
      rcases List.mem_cons.mp hb with rfl | hb2
      · exact hc
      · exact le_trans (hy b hb2) hc
    · simp only [insertDesc, if_neg hc]
      refine List.pairwise_cons.mpr ⟨?_, ih hys⟩
      intro b hb
      have hb2 : b ∈ x :: ys := (insertDesc_perm x ys).mem_iff.mp hb
      rcases List.mem_cons.mp hb2 with rfl | hb3
      · exact le_of_lt (lt_of_not_le hc)
      · exact hy b hb3

/-- The output of `sortDesc` is descending. -/
theorem sortDesc_sorted : ∀ l : List Item,
    (sortDesc l).Pairwise (fun a b => dtKey b ≤ dtKey a) := by
  intro l
  induction l with
  | nil => simp [sortDesc]
  | cons x xs ih => exact insertDesc_sorted x (sortDesc xs) ih

/-- Inserting an element of key `t` puts it in front of the equal-key
elements, and inserting any other element leaves the key-`t` subsequence
unchanged. -/
theorem filter_insertDesc (t : Int) (x : Item) : ∀ l : List Item,
    (insertDesc x l).filter (fun it => dtKey it == t)
      = if dtKey x == t then x :: l.filter (fun it => dtKey it == t)
        else l.filter (fun it => dtKey it == t) := by
  intro l
  induction l with
  | nil =>
    cases hx : (dtKey x == t) with
    | true => simp [insertDesc, List.filter, hx]
    | false => simp [insertDesc, List.filter, hx]
  | cons y ys ih =>
    by_cases hc : dtKey y ≤ dtKey x
    · cases hx : (dtKey x == t) with
      | true => simp [insertDesc, if_pos hc, List.filter_cons, hx]
      | false => simp [insertDesc, if_pos hc, List.filter_cons, hx]
    · cases hx : (dtKey x == t) with
      | true =>
        have hxt : dtKey x = t := by simpa using hx
        have hyt : (dtKey y == t) = false := by
          have hlt : dtKey x < dtKey y := lt_of_not_le hc
          rw [beq_eq_false_iff_ne]
          omega
        simp [insertDesc, if_neg hc, List.filter_cons, hyt, ih, hx]
      | false =>
        simp [insertDesc, if_neg hc, List.filter_cons, ih, hx]

/-- Stability of `sortDesc`: the subsequence of any fixed key is
untouched. -/
theorem filter_sortDesc (t : Int) : ∀ l : List Item,
    (sortDesc l).filter (fun it => dtKey it == t) = l.filter (fun it => dtKey it == t) := by
  intro l
  induction l with
  | nil => rfl
  | cons x xs ih =>
    simp only [sortDesc]
    rw [filter_insertDesc]
    cases hx : (dtKey x == t) with
    | true => simp [hx, ih, List.filter_cons]
    | false => simp [hx, ih, List.filter_cons]

/-! ### Claims about the merge engine -/

/-- Claim C1: the final item collection of any run contains no two items
with equal links. -/
theorem C1_dedup_links : ∀ (conv : Nat → Option Int) (now : Int) (cap tcap : Nat)
    (feeds : List (String × RawFeedDoc)),
    ((runPipeline conv now cap tcap feeds).1).Pairwise (fun a b => a.link ≠ b.link) := by
  intro conv now cap tcap feeds
  have hinv := (accumulate_inv conv now cap feeds).1
  have hperm := sortDesc_perm (accumulate conv now cap feeds).items
  have hsorted : (sortDesc (accumulate conv now cap feeds).items).Pairwise
      (fun a b => a.link ≠ b.link) := (hperm.pairwise_iff (fun hab => Ne.symm hab)).mpr hinv
  exact hsorted.sublist (List.take_sublist _ _)

/-- Claim C2: after accumulation the collection is sorted by timestamp
descending and truncated to `totalCap`; adjacent final items have
non-increasing timestamps, and items of any fixed timestamp keep their
accumulation order (stable sort). -/
theorem C2_sort_stable : ∀ (conv : Nat → Option Int) (now : Int) (cap tcap : Nat)
    (feeds : List (String × RawFeedDoc)),
    (runPipeline conv now cap tcap feeds).1
      = (sortDesc (accumulate conv now cap feeds).items).take tcap
    ∧ List.Chain' (fun a b => dtKey b ≤ dtKey a) (runPipeline conv now cap tcap feeds).1
    ∧ ∀ t : Int,
        (sortDesc (accumulate conv now cap feeds).items).filter (fun it => dtKey it == t)
          = (accumulate conv now cap feeds).items.filter (fun it => dtKey it == t) := by
  intro conv now cap tcap feeds
  refine ⟨rfl, ?_, fun t => filter_sortDesc t _⟩
  have hs := sortDesc_sorted (accumulate conv now cap feeds).items
  exact (hs.sublist (List.take_sublist _ _)).chain'

/-- `addEntry` appends at most one item. -/
theorem addEntry_len (conv : Nat → Option Int) (now : Int) (ft : String)
    (st : MergeState) (e : RawEntry) :
    (addEntry conv now ft st e).items.length ≤ st.items.length + 1 := by
  unfold addEntry
  by_cases hc : entryLink e = "" ∨ entryLink e ∈ st.seen
  · simp [if_pos hc]
  · simp [if_neg hc]

/-- Folding entries appends at most one item per entry. -/
theorem foldl_addEntry_len (conv : Nat → Option Int) (now : Int) (ft : String) :
    ∀ (es : List RawEntry) (st : MergeState),
      (es.foldl (addEntry conv now ft) st).items.length ≤ st.items.length + es.length := by
  intro es
  induction es with
  | nil => intro st; simp
  | cons e es ih =>
    intro st
    have h1 := ih (addEntry conv now ft st e)
    have h2 := addEntry_len conv now ft st e
    simp only [List.foldl_cons, List.length_cons]
    omega

/-- Claim C3: each source contributes at most `perFeedCap` items, the cap
is taken over the raw entries before link filtering and deduplication,
and the final collection never exceeds `totalCap`. -/
theorem C3_caps : ∀ (conv : Nat → Option Int) (now : Int) (cap tcap : Nat),
    (∀ st url doc, (processFeed conv now cap st url doc).items.length ≤ st.items.length + cap)
    ∧ (∀ st url doc, doc.entries ≠ [] →
        processFeed conv now cap st url doc
          = (doc.entries.take cap).foldl
              (addEntry conv now (pyOrS (norm_text (doc.ftitle.getD "")) url)) st)
    ∧ (∀ feeds, (runPipeline conv now cap tcap feeds).1.length ≤ tcap) := by
  intro conv now cap tcap
  refine ⟨?_, ?_, ?_⟩
  · intro st url doc
    unfold processFeed
    by_cases hd : doc.entries = []
    · simp [if_pos hd]
    · simp only [if_neg hd]
      have h1 := foldl_addEntry_len conv now
        (pyOrS (norm_text (doc.ftitle.getD "")) url) (doc.entries.take cap) st
      have h2 : (doc.entries.take cap).length ≤ cap := List.length_take_le _ _
      omega
  · intro st url doc hd
    simp [processFeed, hd]
  · intro feeds
    exact List.length_take_le _ _

/-- Conversion used in the concrete scenarios: nothing parses, so every
timestamp falls back to `now`. -/
def convN : Nat → Option Int := fun _ => none

/-- Entry with link `x` in feed `A`. -/
def entX : RawEntry := ⟨some "tx", some "x", none, none, none, none⟩

/-- Entry with link `y` in feed `A`. -/
def entY : RawEntry := ⟨some "ty", some "y", none, none, none, none⟩

/-- Entry with link `z` in feed `A`. -/
def entZ : RawEntry := ⟨some "tz", some "z", none, none, none, none⟩

/-- Duplicate-link entry `y` in feed `B`. -/
def entYB : RawEntry := ⟨some "tyb", some "y", none, none, none, none⟩

/-- Entry with link `w` in feed `B`. -/
def entW : RawEntry := ⟨some "tw", some "w", none, none, none, none⟩

/-- Feed `A` of the duplicate-link scenario. -/
def docA : RawFeedDoc := ⟨some "A", [entX, entY, entZ]⟩

/-- Feed `B` of the duplicate-link scenario. -/
def docB : RawFeedDoc := ⟨some "B", [entYB, entW]⟩

/-- The two-source scenario of the spec: `A` with links x, y, z then `B`
with links y, w. -/
def scenarioFeeds : List (String × RawFeedDoc) := [("urlA", docA), ("urlB", docB)]

/-- The empty initial merge state. -/
def st0 : MergeState := ⟨[], [], 0⟩

/-- Witness for C3: with a non-empty document, `processFeed` is exactly
the fold of `addEntry` over the first `perFeedCap` raw entries. -/
theorem C3_witness : processFeed convN 0 30 st0 "urlA" docA
    = (docA.entries.take 30).foldl
        (addEntry convN 0 (pyOrS (norm_text (docA.ftitle.getD "")) "urlA")) st0 :=
  (C3_caps convN 0 30 1000).2.1 st0 "urlA" docA (by decide)

/-- Claim C4: deduplication is global and first-seen wins — an entry whose
link was already seen leaves the state unchanged, an unseen valid link is
appended, and on the spec's two-feed scenario the pre-sort collection is
x, y (attributed to A), z, w. -/
theorem C4_first_seen_wins : ∀ (conv : Nat → Option Int) (now : Int) (ft : String)
    (st : MergeState) (e : RawEntry),
    (entryLink e ∈ st.seen → addEntry conv now ft st e = st)
    ∧ (entryLink e ≠ "" → entryLink e ∉ st.seen →
        (addEntry conv now ft st e).items
          = st.items ++ [⟨entryTitle e, entryLink e, entrySummary e, ft, to_dt conv now e⟩])
    ∧ ((accumulate convN 0 30 scenarioFeeds).items.map Item.link = ["x", "y", "z", "w"]
        ∧ (accumulate convN 0 30 scenarioFeeds).items.map Item.source = ["A", "A", "A", "B"]) := by
  intro conv now ft st e
  refine ⟨?_, ?_, by decide, by decide⟩
  · intro h
    simp [addEntry, h]
  · intro h1 h2
    simp [addEntry, h1, h2]

/-- Merge state already containing a seen link, for the `C4` witness. -/
def st4 : MergeState := ⟨["http://a"], [], 0⟩

/-- Entry whose link is already seen, for the `C4` witness. -/
def ent4 : RawEntry := ⟨none, some "http://a", none, none, none, none⟩

/-- Witness for C4: a duplicate link leaves the state unchanged. -/
theorem C4_witness : addEntry convN 0 "F" st4 ent4 = st4 :=
  (C4_first_seen_wins convN 0 "F" st4 ent4).1 (by decide)

/-- Claim C9: the combined-feed guid is a deterministic function of the
item's link alone — two items with equal links get identical guids, whatever
their titles, summaries, sources or timestamps. -/
theorem C9_guid_link_only : ∀ it1 it2 : Item, it1.link = it2.link → guidOf it1 = guidOf it2 := by
  intro it1 it2 h
  unfold guidOf
  rw [h]

/-- Item used by the `C9` witness. -/
def itemA : Item := ⟨"t1", "http://example.com/a", "s1", "feed one", ⟨5, true⟩⟩

/-- Item sharing only the link with `itemA`. -/
def itemB : Item := ⟨"t2", "http://example.com/a", "s2", "feed two", ⟨9, false⟩⟩

/-- Witness for C9 at two concrete items differing in every field but the
link. -/
theorem C9_witness : guidOf itemA = guidOf itemB := C9_guid_link_only itemA itemB rfl

/-! ### Title and summary normalization claims -/

/-- Entry whose raw title is whitespace-only. -/
def entBlankTitle : RawEntry := ⟨some " ", some "http://a", none, none, none, none⟩

/-- One-entry document around `entBlankTitle`. -/
def docBlank : RawFeedDoc := ⟨none, [entBlankTitle]⟩

/-- Entry whose raw summary carries surrounding whitespace. -/
def entWsSum : RawEntry := ⟨some "t", some "http://b", some " hi ", none, none, none⟩

/-- One-entry document around `entWsSum`. -/
def docWs : RawFeedDoc := ⟨none, [entWsSum]⟩

/-- Counterexample to C7: a run over an entry whose raw title is the
single space `" "` produces an item whose title is the empty string —
the placeholder is not substituted when the trimmed title is empty, only
when the raw title is empty or absent. -/
theorem C7_counterexample :
    ((runPipeline convN 0 30 1000 [("u", docBlank)]).1.map Item.title) = [""]
    ∧ ("" : String) ≠ "(无标题)" := by
  refine ⟨by decide, by decide⟩

/-- Claim C7 as amended: the placeholder is substituted exactly when the
raw title is absent or empty (before trimming); otherwise the title is
the stripped raw title, which is non-empty whenever the raw title has
any non-whitespace content. -/
theorem C7_title_amended : ∀ e : RawEntry,
    (e.title.getD "" = "" → entryTitle e = "(无标题)")
    ∧ (pyStrip (e.title.getD "") ≠ "" →
        entryTitle e = pyStrip (e.title.getD "") ∧ entryTitle e ≠ "") := by
  intro e
  constructor
  · intro h
    simp only [entryTitle, pyOrS, h, if_pos rfl]
    decide
  · intro h
    have hne : e.title.getD "" ≠ "" := by
      intro h0
      apply h
      rw [h0]
      decide
    have ht : entryTitle e = pyStrip (e.title.getD "") := by
      simp [entryTitle, pyOrS, hne, norm_text]
    exact ⟨ht, by rw [ht]; exact h⟩

/-- Entry used by the `C7` witness. -/
def entHello : RawEntry := ⟨some " hello ", none, none, none, none, none⟩

/-- Witness for the amended C7 at a title with surrounding whitespace and
real content. -/
theorem C7_witness : entryTitle entHello = pyStrip (entHello.title.getD "")
    ∧ entryTitle entHello ≠ "" :=
  (C7_title_amended entHello).2 (by decide)

/-- Counterexample to C8: a run over an entry whose raw summary is
`" hi "` keeps the surrounding whitespace in the final item — the source
applies no trimming to summaries. -/
theorem C8_counterexample :
    ((runPipeline convN 0 30 1000 [("u", docWs)]).1.map Item.summary) = [" hi "]
    ∧ (" hi " : String) ≠ pyStrip " hi " := by
  refine ⟨by decide, by decide⟩

/-- Claim C8 as amended: the item's summary is the raw summary carried
through verbatim (no trimming), with the empty string substituted when
the field is absent. -/
theorem C8_summary_verbatim : ∀ e : RawEntry, entrySummary e = e.summary.getD "" := by
  intro e
  by_cases h : e.summary.getD "" = ""
  · simp [entrySummary, pyOrS, h]
  · simp [entrySummary, pyOrS, h]

/-! ### Structure of the escape chain -/

/-- `catMap` of the singleton function is the identity. -/
theorem catMap_id : ∀ l : List Char, catMap (fun c => [c]) l = l := by
  intro l
  induction l with
  | nil => rfl
  | cons c rest ih => show c :: catMap (fun c => [c]) rest = c :: rest; rw [ih]

/-- A replacement walks past a head character that does not open the
pattern. -/
theorem repAux_cons_ne (p : Char) (ps rep : List Char) (c : Char) (T : List Char)
    (h : (p == c) = false) :
    replaceStr p ps rep (c :: T) = c :: replaceStr p ps rep T := by
  show repAux p ps rep 0 (c :: T) = c :: repAux p ps rep 0 T
  simp only [repAux, isPre, h, Bool.false_and]

/-- Lift a per-character step behavior of a replacement through
`catMap`. -/
theorem replace_catMap_of_step (p : Char) (ps rep : List Char) (f g : Char → List Char)
    (hstep : ∀ c T, replaceStr p ps rep (f c ++ T) = g c ++ replaceStr p ps rep T) :
    ∀ l, replaceStr p ps rep (catMap f l) = catMap g l := by
  intro l
  induction l with
  | nil => rfl
  | cons c rest ih =>
    show replaceStr p ps rep (f c ++ catMap f rest) = g c ++ catMap g rest
    rw [hstep c (catMap f rest), ih]

/-- Step behavior of `.replace("&", "&amp;")` on a raw character. -/
theorem stepE1 : ∀ (c : Char) (T : List Char),
    replaceStr '&' [] ['&', 'a', 'm', 'p', ';'] ([c] ++ T)
      = escChar1 c ++ replaceStr '&' [] ['&', 'a', 'm', 'p', ';'] T := by
  intro c T
  by_cases h1 : c = '&'
  · subst h1; rfl
  · have e : escChar1 c = [c] := by simp [escChar1, beq_eq_false_iff_ne.mpr h1]
    rw [e]
    exact repAux_cons_ne _ _ _ _ _ (beq_eq_false_iff_ne.mpr (fun hh => h1 hh.symm))

/-- Step behavior of `.replace("<", "&lt;")` on the `&`-escaped stream. -/
theorem stepE2 : ∀ (c : Char) (T : List Char),
    replaceStr '<' [] ['&', 'l', 't', ';'] (escChar1 c ++ T)
      = escChar12 c ++ replaceStr '<' [] ['&', 'l', 't', ';'] T := by
  intro c T
  by_cases h1 : c = '&'
  · subst h1; rfl
  · by_cases h2 : c = '<'
    · subst h2; rfl
    · have e1 : escChar1 c = [c] := by simp [escChar1, beq_eq_false_iff_ne.mpr h1]
      have e2 : escChar12 c = [c] := by
        simp [escChar12, beq_eq_false_iff_ne.mpr h1, beq_eq_false_iff_ne.mpr h2]
      rw [e1, e2]
      exact repAux_cons_ne _ _ _ _ _ (beq_eq_false_iff_ne.mpr (fun hh => h2 hh.symm))

/-- Step behavior of `.replace(">", "&gt;")` on the `&`,`<`-escaped
stream. -/
theorem stepE3 : ∀ (c : Char) (T : List Char),
    replaceStr '>' [] ['&', 'g', 't', ';'] (escChar12 c ++ T)
      = escChar c ++ replaceStr '>' [] ['&', 'g', 't', ';'] T := by
  intro c T
  by_cases h1 : c = '&'
  · subst h1; rfl
  · by_cases h2 : c = '<'
    · subst h2; rfl
    · by_cases h3 : c = '>'
      · subst h3; rfl
      · have e1 : escChar12 c = [c] := by
          simp [escChar12, beq_eq_false_iff_ne.mpr h1, beq_eq_false_iff_ne.mpr h2]
        have e2 : escChar c = [c] := by
          simp [escChar, beq_eq_false_iff_ne.mpr h1, beq_eq_false_iff_ne.mpr h2,
            beq_eq_false_iff_ne.mpr h3]
        rw [e1, e2]
        exact repAux_cons_ne _ _ _ _ _ (beq_eq_false_iff_ne.mpr (fun hh => h3 hh.symm))

/-- The full escape chain acts charwise. -/
theorem xmlEscapeL_eq : ∀ l : List Char, xmlEscapeL l = catMap escChar l := by
  intro l
  show replaceStr '>' [] ['&', 'g', 't', ';']
      (replaceStr '<' [] ['&', 'l', 't', ';']
        (replaceStr '&' [] ['&', 'a', 'm', 'p', ';'] l)) = catMap escChar l
  have h1 : replaceStr '&' [] ['&', 'a', 'm', 'p', ';'] l = catMap escChar1 l := by
    conv_lhs => rw [← catMap_id l]
    exact replace_catMap_of_step _ _ _ _ _ stepE1 l
  rw [h1, replace_catMap_of_step _ _ _ _ _ stepE2 l,
    replace_catMap_of_step _ _ _ _ _ stepE3 l]

/-- Step behavior of undoing `&lt;` on the escaped stream. -/
theorem stepU1 : ∀ (c : Char) (T : List Char),
    replaceStr '&' ['l', 't', ';'] ['<'] (escChar c ++ T)
      = escChar2 c ++ replaceStr '&' ['l', 't', ';'] ['<'] T := by
  intro c T
  by_cases h1 : c = '&'
  · subst h1; rfl
  · by_cases h2 : c = '<'
    · subst h2; rfl
    · by_cases h3 : c = '>'
      · subst h3; rfl
      · have e1 : escChar c = [c] := by
          simp [escChar, beq_eq_false_iff_ne.mpr h1, beq_eq_false_iff_ne.mpr h2,
            beq_eq_false_iff_ne.mpr h3]
        have e2 : escChar2 c = [c] := by
          simp [escChar2, beq_eq_false_iff_ne.mpr h1, beq_eq_false_iff_ne.mpr h3]
        rw [e1, e2]
        exact repAux_cons_ne _ _ _ _ _ (beq_eq_false_iff_ne.mpr (fun hh => h1 hh.symm))

/-- Step behavior of undoing `&gt;` on the partially unescaped stream. -/
theorem stepU2 : ∀ (c : Char) (T : List Char),
    replaceStr '&' ['g', 't', ';'] ['>'] (escChar2 c ++ T)
      = escChar1 c ++ replaceStr '&' ['g', 't', ';'] ['>'] T := by
  intro c T
  by_cases h1 : c = '&'
  · subst h1; rfl
  · by_cases h3 : c = '>'
    · subst h3; rfl
    · have e1 : escChar2 c = [c] := by
        simp [escChar2, beq_eq_false_iff_ne.mpr h1, beq_eq_false_iff_ne.mpr h3]
      have e2 : escChar1 c = [c] := by simp [escChar1, beq_eq_false_iff_ne.mpr h1]
      rw [e1, e2]
      exact repAux_cons_ne _ _ _ _ _ (beq_eq_false_iff_ne.mpr (fun hh => h1 hh.symm))

/-- Step behavior of undoing `&amp;`, recovering the raw character. -/
theorem stepU3 : ∀ (c : Char) (T : List Char),
    replaceStr '&' ['a', 'm', 'p', ';'] ['&'] (escChar1 c ++ T)
      = [c] ++ replaceStr '&' ['a', 'm', 'p', ';'] ['&'] T := by
  intro c T
  by_cases h1 : c = '&'
  · subst h1; rfl
  · have e1 : escChar1 c = [c] := by simp [escChar1, beq_eq_false_iff_ne.mpr h1]
    rw [e1]
    exact repAux_cons_ne _ _ _ _ _ (beq_eq_false_iff_ne.mpr (fun hh => h1 hh.symm))

/-- The inverse substitutions undo the escape chain exactly. -/
theorem xmlUnescapeL_escape : ∀ l : List Char, xmlUnescapeL (xmlEscapeL l) = l := by
  intro l
  rw [xmlEscapeL_eq]
  show replaceStr '&' ['a', 'm', 'p', ';'] ['&']
      (replaceStr '&' ['g', 't', ';'] ['>']
        (replaceStr '&' ['l', 't', ';'] ['<'] (catMap escChar l))) = l
  rw [replace_catMap_of_step _ _ _ _ _ stepU1 l,
    replace_catMap_of_step _ _ _ _ _ stepU2 l,
    replace_catMap_of_step _ _ _ _ _ stepU3 l, catMap_id]

/-- No raw angle bracket survives the escape chain. -/
theorem noAngle_escape : ∀ l : List Char, noAngleL (catMap escChar l) = true := by
  intro l
  induction l with
  | nil => rfl
  | cons c rest ih =>
    have step : noAngleL (escChar c ++ catMap escChar rest)
        = (noAngleL (escChar c) && noAngleL (catMap escChar rest)) := by
      simp [noAngleL, List.all_append]
    show noAngleL (escChar c ++ catMap escChar rest) = true
    rw [step, ih, Bool.and_true]
    by_cases h1 : c = '&'
    · subst h1; rfl
    · by_cases h2 : c = '<'
      · subst h2; rfl
      · by_cases h3 : c = '>'
        · subst h3; rfl
        · have e : escChar c = [c] := by
            simp [escChar, beq_eq_false_iff_ne.mpr h1, beq_eq_false_iff_ne.mpr h2,
              beq_eq_false_iff_ne.mpr h3]
          rw [e]
          simp [noAngleL, beq_eq_false_iff_ne.mpr h2, beq_eq_false_iff_ne.mpr h3]

/-- Every ampersand in the escaped stream heads an inserted entity. -/
theorem ampOk_escape : ∀ l : List Char, ampOk (catMap escChar l) = true := by
  intro l
  induction l with
  | nil => rfl
  | cons c rest ih =>
    by_cases h1 : c = '&'
    · subst h1; exact ih
    · by_cases h2 : c = '<'
      · subst h2; exact ih
      · by_cases h3 : c = '>'
        · subst h3; exact ih
        · have e : escChar c = [c] := by
            simp [escChar, beq_eq_false_iff_ne.mpr h1, beq_eq_false_iff_ne.mpr h2,
              beq_eq_false_iff_ne.mpr h3]
          show ampOk (escChar c ++ catMap escChar rest) = true
          rw [e]
          show ampOk (c :: catMap escChar rest) = true
          simp only [ampOk, beq_eq_false_iff_ne.mpr h1, if_neg, Bool.true_and]
          exact ih

/-- Claim C10: `xml_escape` leaves no raw angle bracket, every ampersand
in its output heads one of the inserted entities, the inverse
substitutions (`&lt;`, `&gt;`, then `&amp;`) recover the input exactly,
and the escaping is injective. -/
theorem C10_escape_roundtrip : ∀ s : String,
    noAngleL (xml_escape s).data = true
    ∧ ampOk (xml_escape s).data = true
    ∧ xml_unescape (xml_escape s) = s
    ∧ (∀ t : String, xml_escape s = xml_escape t → s = t) := by
  intro s
  have hrt : ∀ u : String, xml_unescape (xml_escape u) = u := by
    intro u
    show String.mk (xmlUnescapeL (String.mk (xmlEscapeL u.data)).data) = u
    rw [show (String.mk (xmlEscapeL u.data)).data = xmlEscapeL u.data from rfl,
      xmlUnescapeL_escape u.data]
  refine ⟨?_, ?_, hrt s, ?_⟩
  · show noAngleL (xmlEscapeL s.data) = true
    rw [xmlEscapeL_eq]
    exact noAngle_escape s.data
  · show ampOk (xmlEscapeL s.data) = true
    rw [xmlEscapeL_eq]
    exact ampOk_escape s.data
  · intro t h
    have h2 := hrt t
    rw [← h] at h2
    rw [hrt s] at h2
    exact h2

/-- Witness for C10: round trip and injectivity at a concrete string
containing all three escaped characters. -/
theorem C10_witness : xml_unescape (xml_escape "a<&>b") = "a<&>b"
    ∧ ("a<&>b" : String) = "a<&>b" :=
  ⟨(C10_escape_roundtrip "a<&>b").2.2.1, (C10_escape_roundtrip "a<&>b").2.2.2 "a<&>b" rfl⟩

end RSS
